import Mathlib

/-!
Verification development for the data-to-excel flattening engine
(src/modules/parser.py).

The Python program converts a nested document (JSON/XML/YAML) into a
mapping from table names to flat pandas DataFrames.  This file gives a
shallow embedding of the parts of the program the claims are about:

* `Value` is the generic document model (scalars, lists, objects).
* `DFrame` models a pandas DataFrame as an integer row index plus an
  ordered list of named columns, each column an ordered list of cells.
* `json_normalize` models `pandas.json_normalize` of pandas 1.x (the
  version pinned by the use of `DataFrame.iteritems` in the source):
  an empty list gives an empty frame; a dict, or a list of dicts, gives
  one row per record, nested dicts flattened to dotted column names
  with lists kept as cells and missing keys filled with NaN (modelled
  here as `Value.null`); every other input raises
  (NotImplementedError for scalars, AttributeError for a list that
  contains a non-dict element), modelled as `none`.
* `flatten_first_level`, `flatten_from_nested`, `flatten_other_levels`,
  `extract_dataframes` follow the Python functions line by line, with
  Python dicts embedded as ordered association lists (insertion order,
  in-place update keeps the position, `pop` removes), and the unbounded
  `while` loop of `flatten_other_levels` given explicit fuel.
* `create_short_name` models the sheet-name shortener on lists of
  characters (Python strings are sequences of code points); indexing an
  empty string, which raises IndexError in Python, is modelled as `none`.
* `index_to_one`, `update_indices` model the row reindexer, and
  `convert_data_to_excel` models the top-level driver, with the naming
  registry passed in as association lists (the spec treats it as
  external configuration) and the written Excel artifacts recorded in a
  `ConvResult`.
-/

namespace DataToExcel

/-- The generic document model: a scalar (string, number, boolean,
null), an ordered list, or an object with ordered fields. -/
inductive Value where
  | str : String → Value
  | num : Int → Value
  | bool : Bool → Value
  | null : Value
  | list : List Value → Value
  | obj : List (String × Value) → Value
deriving Repr

/-- Runtime check `isinstance(v, list)`. -/
def isList : Value → Bool
  | Value.list _ => true
  | _ => false

/-- Runtime check `isinstance(v, dict)`. -/
def isObj : Value → Bool
  | Value.obj _ => true
  | _ => false

/-- Runtime check `isinstance(v, str)`. -/
def isStr : Value → Bool
  | Value.str _ => true
  | _ => false

/-- The fields of an object value, empty for non-objects. -/
def objFields : Value → List (String × Value)
  | Value.obj f => f
  | _ => []

/-- A pandas DataFrame: a row index and ordered named columns.  All
columns of a well-formed frame have the same length as the index. -/
structure DFrame where
  index : List Int
  cols : List (String × List Value)
deriving Repr

/-- The mapping from table name to table, modelling the Python dict
with its insertion order. -/
abbrev Tables := List (String × DFrame)

/-- Python dict assignment `d[k] = v`: update in place when the key is
present (keeping its position), append otherwise. -/
def dictInsert (d : Tables) (k : String) (v : DFrame) : Tables :=
  if d.any (fun kv => kv.1 == k) then
    d.map (fun kv => if kv.1 == k then (k, v) else kv)
  else d ++ [(k, v)]

/-- Python dict `d.pop(k)`: remove the entry with the key. -/
def dictPop (d : Tables) (k : String) : Tables :=
  d.filter (fun kv => kv.1 != k)

/-- Lookup of a table by name. -/
def lookupT (d : Tables) (k : String) : Option DFrame :=
  d.lookup k

/-- Membership of a key, `k in d`. -/
def containsKey (d : Tables) (k : String) : Bool :=
  d.any (fun kv => kv.1 == k)

/-- The flattening step of pandas `nested_to_record` at nesting level
one and deeper: every field is traversed in order, a dict field is
replaced in place by its recursively flattened dotted entries, any
other field keeps its value under its dotted key. -/
def nestedExpand (pre : String) : List (String × Value) → List (String × Value)
  | [] => []
  | (k, Value.obj g) :: rest =>
      nestedExpand (pre ++ "." ++ k) g ++ nestedExpand pre rest
  | (k, v) :: rest => (pre ++ "." ++ k, v) :: nestedExpand pre rest

/-- pandas `nested_to_record` at level zero: non-dict fields keep their
positions, dict fields are popped and their flattened dotted entries
are appended at the end in traversal order. -/
def nested_to_record (fields : List (String × Value)) : List (String × Value) :=
  fields.filter (fun kv => !(isObj kv.2)) ++
    fields.flatMap (fun kv =>
      match kv.2 with
      | Value.obj g => nestedExpand kv.1 g
      | _ => [])

/-- Insert a column name if it is not present yet. -/
def insertKey (acc : List String) (k : String) : List String :=
  if acc.contains k then acc else acc ++ [k]

/-- Column names of a list of flat records: union of the keys in first
seen order, as pandas `DataFrame(list_of_dicts)` builds them. -/
def unionKeys (recs : List (List (String × Value))) : List String :=
  recs.foldl (fun acc r => (r.map Prod.fst).foldl insertKey acc) []

/-- Model of `DataFrame(list_of_flat_records)`: default integer index, one row
per record, a missing key filled with NaN (modelled as null). -/
def dfFromRecords (recs : List (List (String × Value))) : DFrame :=
  ⟨(List.range recs.length).map Int.ofNat,
   (unionKeys recs).map (fun k =>
     (k, recs.map (fun r => (r.lookup k).getD Value.null)))⟩

/-- Model of `pandas.json_normalize` of pandas 1.x.  An empty list returns an
empty frame; a dict is the singleton record list; a list of dicts is
normalized record-wise; a scalar raises NotImplementedError and a list
containing a non-dict element raises AttributeError inside the
normalizer, both modelled as `none`. -/
def json_normalize : Value → Option DFrame
  | Value.list [] => some ⟨[], []⟩
  | Value.obj f => some (dfFromRecords [nested_to_record f])
  | Value.list vs =>
      if vs.all isObj then
        some (dfFromRecords (vs.map (fun v => nested_to_record (objFields v))))
      else none
  | _ => none

/-- Model of `DataFrame(values, columns=[name])`, used for a first-level list of
strings: a single column holding the list elements as rows. -/
def singleColDF (name : String) (vals : List Value) : DFrame :=
  ⟨(List.range vals.length).map Int.ofNat, [(name, vals)]⟩

/-- Model of `dataframe[columns_list]`: column selection in the given order,
keeping the index. -/
def selectCols (df : DFrame) (cl : List String) : DFrame :=
  ⟨df.index, cl.map (fun c => (c, (df.cols.lookup c).getD []))⟩

/-- The loop body of `flatten_first_level`, iterating over the columns
of the root frame.  For each field: a non-list first cell keeps the
field in `columns_list`; a list whose first element is a string becomes
a single-column table; an empty list raises IndexError on the unguarded
`value.values[0][0]` (modelled as `none`); any other list is passed to
`json_normalize`. -/
def flattenFLAux : List (String × List Value) → List String → Tables →
    Option (List String × Tables)
  | [], cl, ts => some (cl, ts)
  | (f, cells) :: rest, cl, ts =>
    match cells.head? with
    | none => none
    | some v =>
      match v with
      | Value.list l =>
        match l with
        | [] => none
        | h :: t =>
          if isStr h then
            flattenFLAux rest cl (dictInsert ts f (singleColDF f (h :: t)))
          else
            match json_normalize (Value.list (h :: t)) with
            | none => none
            | some tb => flattenFLAux rest cl (dictInsert ts f tb)
      | _ => flattenFLAux rest (cl ++ [f]) ts

/-- The function `flatten_first_level`: split the single-row root frame into the
kept scalar columns (stored under the reserved table name 1) and one new
table per first-level list field. -/
def flatten_first_level (df : DFrame) : Option Tables :=
  (flattenFLAux df.cols [] []).map (fun p =>
    dictInsert p.2 ("1") (selectCols df p.1))

/-- Model of `table.drop(column, axis=1)`. -/
def dropCol (t : DFrame) (c : String) : DFrame :=
  ⟨t.index, t.cols.filter (fun kv => kv.1 != c)⟩

/-- The innermost loop of `flatten_from_nested`: enumerate the cells of
one column starting at 1; each list cell is normalized into a child
table stored under `name ++ "." ++ col ++ i` with the absolute 1-based
row position `i`, setting the changed flag; a failing `json_normalize`
aborts (modelled as `none`). -/
def processCells (name col : String) :
    List Value → Nat → Tables → Bool → Option (Tables × Bool)
  | [], _, acc, changed => some (acc, changed)
  | v :: rest, i, acc, changed =>
    match v with
    | Value.list l =>
      match json_normalize (Value.list l) with
      | none => none
      | some tb =>
          processCells name col rest (i + 1)
            (dictInsert acc (name ++ "." ++ col ++ toString i) tb) true
    | _ => processCells name col rest (i + 1) acc changed

/-- The per-table loop of `flatten_from_nested`: for each column of the
snapshot table, expand its list cells; if the column had any, pop the
table and re-insert the snapshot table with only that column dropped
(so a later changed column overwrites the effect of an earlier one),
and set the global loop flag. -/
def processTable (name : String) (table : DFrame) :
    List (String × List Value) → Tables → Bool → Option (Tables × Bool)
  | [], acc, la => some (acc, la)
  | (col, cells) :: restCols, acc, la =>
    match processCells name col cells 1 acc false with
    | none => none
    | some (acc2, changed) =>
      if changed then
        processTable name table restCols
          (dictInsert (dictPop acc2 name) name (dropCol table col)) true
      else
        processTable name table restCols acc2 la

/-- One pass of `flatten_from_nested` over the snapshot
`new_tables.copy().items()` taken at pass start, threading the mutable
mapping and the `loop_again` flag. -/
def passTables : List (String × DFrame) → Tables → Bool → Option (Tables × Bool)
  | [], acc, la => some (acc, la)
  | (name, table) :: rest, acc, la =>
    match processTable name table table.cols acc la with
    | none => none
    | some (acc2, la2) => passTables rest acc2 la2

/-- The function `flatten_from_nested`: one pass over a snapshot of the mapping,
returning `(loop_again, new_tables)`. -/
def flatten_from_nested (ts : Tables) : Option (Bool × Tables) :=
  (passTables ts ts false).map (fun p => (p.2, p.1))

/-- The function `flatten_other_levels`: iterate `flatten_from_nested` until a pass
reports no further work.  The unbounded Python `while True` loop is
embedded with fuel; `none` is an aborted pass or exhausted fuel. -/
def flatten_other_levels : Nat → Tables → Option Tables
  | 0, _ => none
  | fuel + 1, ts =>
    match flatten_from_nested ts with
    | none => none
    | some (false, ts2) => some ts2
    | some (true, ts2) => flatten_other_levels fuel ts2

/-- The function `extract_dataframes`: the whole flattening engine. -/
def extract_dataframes (fuel : Nat) (df : DFrame) : Option Tables :=
  (flatten_first_level df).bind (flatten_other_levels fuel)

/-- Does a cell of the table hold a list-typed value? -/
def hasListTable (t : DFrame) : Bool :=
  t.cols.any (fun c => c.2.any isList)

/-- Does a cell of any table of the mapping hold a list-typed value? -/
def hasListCell (ts : Tables) : Bool :=
  ts.any (fun nt => hasListTable nt.2)

/-- Number of list-typed cells of a table. -/
def listCellCountT (t : DFrame) : Nat :=
  (t.cols.map (fun c => (c.2.filter isList).length)).sum

/-- Total number of list-typed cells across the mapping. -/
def listCellCount (ts : Tables) : Nat :=
  (ts.map (fun nt => listCellCountT nt.2)).sum

/-- Python `name.split(".")` on a string seen as its list of code
points: always a non-empty list of segments. -/
def splitOnDot : List Char → List (List Char)
  | [] => [[]]
  | c :: rest =>
    if c = '.' then [] :: splitOnDot rest
    else
      match splitOnDot rest with
      | [] => [[c]]
      | s :: ss => (c :: s) :: ss

/-- The accumulation loop of `create_short_name` over the non-final
segments: each segment contributes its first two characters, its last
character and a dot.  The Python expression `value[len(value) - 1]`
raises IndexError on an empty segment, modelled as `none`. -/
def shortSegs : List (List Char) → Option (List Char)
  | [] => some []
  | seg :: rest =>
    match seg.getLast? with
    | none => none
    | some c => (shortSegs rest).map (fun r => (seg.take 2 ++ [c] ++ ['.']) ++ r)

/-- The function `create_short_name` on the code points of the name: a name of at
most 31 characters is returned unchanged; otherwise the non-final
segments are compressed and the final segment appended, and a result
still longer than 31 characters is cut to its first 30 characters plus
its own last character. -/
def create_short_name (name : List Char) : Option (List Char) :=
  if name.length ≤ 31 then some name
  else
    match shortSegs (splitOnDot name).dropLast with
    | none => none
    | some pre =>
      let potential := pre ++ (splitOnDot name).getLastD []
      if potential.length ≤ 31 then some potential
      else
        match potential.getLast? with
        | none => none
        | some c => some (potential.take 30 ++ [c])

/-- The function `create_short_name` lifted back to `String`. -/
def create_short_name_str (s : String) : Option String :=
  (create_short_name s.data).map (fun l => ⟨l⟩)

/-- The function `index_to_one`: `dataframe.index += 1`. -/
def index_to_one (df : DFrame) : DFrame :=
  ⟨df.index.map (fun i => i + 1), df.cols⟩

/-- The function `update_indices`: shift the index of every table. -/
def update_indices (ts : Tables) : Tables :=
  ts.map (fun nt => (nt.1, index_to_one nt.2))

/-- Model of `list(json_string.keys())[0]`: the first key of the root object;
a non-dict root raises AttributeError and an empty dict IndexError,
both modelled as `none`. -/
def rootKeys : Value → Option String
  | Value.obj f => (f.map Prod.fst).head?
  | _ => none

/-- Insertion into a sorted list of names, for `sorted(tables)`. -/
def insertSorted (s : String) : List String → List String
  | [] => [s]
  | t :: ts => if s ≤ t then s :: t :: ts else t :: insertSorted s ts

/-- Model of `sorted(tables)`: the table names in ascending lexicographic
order. -/
def sortStrings (l : List String) : List String :=
  l.foldr insertSorted []

/-- The column renaming of `fetch_proper_names`: a column whose name is
a key of the field registry is renamed to the full label followed by
the code in parentheses. -/
def renameCols (fd : List (String × String)) (df : DFrame) : DFrame :=
  ⟨df.index,
   df.cols.map (fun kv =>
     (match fd.lookup kv.1 with
      | some full => full ++ " (" ++ kv.1 ++ ")"
      | none => kv.1, kv.2))⟩

/-- The function `fetch_proper_names`: the sheet display name is the registered
table label when present and non-empty (Python `or` treats the empty
string as false), else the shortened raw name; the columns are
relabelled from the field registry.  The registries are external
configuration and are passed in. -/
def fetch_proper_names (fd td : List (String × String)) (df : DFrame)
    (sheetName : String) : Option (String × DFrame) :=
  let fromDict :=
    match td.lookup sheetName with
    | some full => if full = "" then none else some full
    | none => none
  match fromDict with
  | some nm => some (nm, renameCols fd df)
  | none => (create_short_name_str sheetName).map (fun nm => (nm, renameCols fd df))

/-- The emission loop of `convert_data_to_excel`: append one sheet per
table in sorted raw-name order, replacing the reserved name 1 by the
first root key; a failure inside `fetch_proper_names` stops the loop
with the sheets appended so far. -/
def emitSheets (fd td : List (String × String)) (tables2 : Tables)
    (jsonName : String) :
    List String → List (String × DFrame) → List (String × DFrame) × Bool
  | [], acc => (acc, false)
  | n :: rest, acc =>
    let d := (lookupT tables2 n).getD ⟨[], []⟩
    let outName := if n == "1" then jsonName else n
    match fetch_proper_names fd td d outName with
    | none => (acc, true)
    | some s => emitSheets fd td tables2 jsonName rest (acc ++ [s])

/-- The observable outcome of one run of `convert_data_to_excel`:
whether the output workbook file was created (line 54 of the source
runs `create_workbook` before `extract_dataframes`), the sheets that
were appended to it, and whether the run raised. -/
structure ConvResult where
  workbookCreated : Bool
  sheets : List (String × DFrame)
  failed : Bool
deriving Repr

/-- The function `convert_data_to_excel`, after the input file has been parsed into
the root `Value`: normalize the root (raising on a non-dict,
non-list-of-dicts root), read the first root key (raising on a
non-dict root), create the workbook, flatten, reindex, sort, and emit
the sheets.  Failure before workbook creation leaves no artifact. -/
def convert_data_to_excel (fuel : Nat) (fd td : List (String × String))
    (root : Value) : ConvResult :=
  match json_normalize root with
  | none => ⟨false, [], true⟩
  | some df =>
    match rootKeys root with
    | none => ⟨false, [], true⟩
    | some jsonName =>
      match extract_dataframes fuel df with
      | none => ⟨true, [], true⟩
      | some tables =>
        let tables2 := update_indices tables
        let names := sortStrings (tables2.map Prod.fst)
        let r := emitSheets fd td tables2 jsonName names []
        ⟨true, r.1, r.2⟩

/-- The last column of a table, in column order, holding at least one
list-typed cell.  This is the single column that survives the repeated
`new_tables[name] = table.drop(column)` reassignments of one pass of
`flatten_from_nested`. -/
def lastListCol : List (String × List Value) → Option String
  | [] => none
  | c :: rest =>
    match lastListCol rest with
    | some c2 => some c2
    | none => if c.2.any isList then some c.1 else none

/-- The child-table names one column generates in one pass: for every
list-typed cell at absolute 1-based position `i` among all rows of the
column, the name `name ++ "." ++ col ++ toString i`. -/
def trigKeysC (name col : String) : List Value → Nat → List String
  | [], _ => []
  | v :: rest, i =>
    if isList v then
      (name ++ "." ++ col ++ toString i) :: trigKeysC name col rest (i + 1)
    else trigKeysC name col rest (i + 1)

/-- Abbreviation of one non-final segment, written from the words of
the specification of the Name Shortener: the first two characters, the
last character, and a dot. -/
def specSegAbbrev (seg : List Char) : List Char :=
  seg.take 2 ++ (match seg.getLast? with | some c => [c] | none => []) ++ ['.']

/-- The Name Shortener result as the specification describes it, for
comparison with `create_short_name`: abbreviate every non-final
segment, append the final segment unmodified, and if the result is
still longer than 31 characters cut it to its first 30 characters plus
its own last character. -/
def specShortName (name : List Char) : List Char :=
  let segs := splitOnDot name
  let base := (segs.dropLast.map specSegAbbrev).flatten ++ segs.getLastD []
  if base.length ≤ 31 then base
  else base.take 30 ++ (match base.getLast? with | some c => [c] | none => [])

/-- The document of the second example scenario of the specification. -/
def exScalarListRoot : Value :=
  Value.obj [("name", Value.str ("A")),
             ("children", Value.list [Value.str ("x"), Value.str ("y"), Value.str ("z")])]

/-- The root frame of that document, `pandas.json_normalize` of it. -/
def exScalarListDf : DFrame :=
  ⟨[0], [("name", [Value.str ("A")]),
         ("children", [Value.list [Value.str ("x"), Value.str ("y"), Value.str ("z")]])]⟩

/-- The table mapping the engine produces for that document. -/
def exScalarListRes : Tables :=
  (extract_dataframes 3 exScalarListDf).getD []

/-- The document of the first example scenario of the specification,
the input of claim C6. -/
def exItemsRoot : Value :=
  Value.obj [("a", Value.num 1),
             ("items", Value.list
               [Value.obj [("x", Value.num 1),
                           ("tags", Value.list [Value.str ("p"), Value.str ("q")])],
                Value.obj [("x", Value.num 2),
                           ("tags", Value.list [Value.str ("r")])]])]

/-- The root frame of the C6 document. -/
def exItemsDf : DFrame :=
  (json_normalize exItemsRoot).getD ⟨[], []⟩

/-- The table mapping after the first-level split of the C6 document:
a table `items` with columns `x` and `tags`, the latter holding the
nested string lists, and the root table under the reserved name 1. -/
def exItemsTs : Tables :=
  (flatten_first_level exItemsDf).getD []

/-- A document for which one expansion pass increases the number of
list-typed cells: the single list cell of table `T` expands into a
child table that itself holds two list cells. -/
def exGrowRoot : Value :=
  Value.obj [("T", Value.list
    [Value.obj [("c", Value.list
      [Value.obj [("a", Value.list [Value.obj [("b", Value.num 1)]]),
                  ("c2", Value.list [Value.obj [("d", Value.num 1)]])]])]])]

/-- The table mapping after the first-level split of that document. -/
def exGrowTs : Tables :=
  (flatten_first_level ((json_normalize exGrowRoot).getD ⟨[], []⟩)).getD []

/-- A table whose column `c` holds a scalar in its first row and a list
in its second row, reachable from the document
with root field `T` equal to the list of the records
`{c: "s"}` and `{c: [{x: 1}]}`. -/
def exMixedTs : Tables :=
  [("T", ⟨[0, 1], [("c", [Value.str ("s"),
                          Value.list [Value.obj [("x", Value.num 1)]]])]⟩),
   ("1", ⟨[0], []⟩)]

/-- The result of one expansion pass over `exMixedTs`. -/
def exMixedRes : Bool × Tables :=
  (flatten_from_nested exMixedTs).getD (false, [])

/-- A table with two list-valued columns `A` and `B` in the same row. -/
def exTwoColTable : DFrame :=
  ⟨[0], [("A", [Value.list [Value.obj [("x", Value.num 1)]]]),
         ("B", [Value.list [Value.obj [("y", Value.num 2)]]])]⟩

/-- The singleton mapping holding `exTwoColTable` under the name `T`. -/
def exTwoColTs : Tables :=
  [("T", exTwoColTable)]

/-- The result of one expansion pass over `exTwoColTs`. -/
def exTwoColRes : Bool × Tables :=
  (flatten_from_nested exTwoColTs).getD (false, [])

/-- The root frame of the document with the single field `n` holding
the list of the numbers 1 and 2, a first-level list of non-string
scalars. -/
def exNumListDf : DFrame :=
  ⟨[0], [("n", [Value.list [Value.num 1, Value.num 2]])]⟩

/-- The root frame of the document with the single field `e` holding
an empty list. -/
def exEmptyListDf : DFrame :=
  ⟨[0], [("e", [Value.list []])]⟩

/-- A name of 32 characters whose first segment is empty: the dot
followed by 31 letters. -/
def exDotName : List Char :=
  ("." ++ "aaaaaaaaaaaaaaaaaaaaaaaaaaaaaaa").data

/-- A dotted name of 38 characters with non-empty segments. -/
def exLongName : List Char :=
  ("abcdefgh.ijklmnopq.rstuvwxyz0123456789").data

/-- A table whose rows are already numbered starting at 1. -/
def exIndexedT : DFrame :=
  ⟨[1], [("a", [Value.str ("x")])]⟩

/-- A two-row table numbered 1 and 2, already reindexed. -/
def exIndexedT2 : DFrame :=
  ⟨[1, 2], [("a", [Value.str ("x"), Value.str ("y")])]⟩

/-- A mapping with a single list-free table. -/
def exCleanTs : Tables :=
  [("K", ⟨[0], [("a", [Value.str ("x")])]⟩)]

/-- The result of the first-level split on the scalar-list example. -/
def exScalarListFirst : Tables :=
  (flatten_first_level exScalarListDf).getD []

theorem beq_symm_false (a b : String) (h : (a == b) = false) : (b == a) = false := by
  cases hb : (b == a) with
  | false => rfl
  | true => rw [eq_of_beq hb, beq_self_eq_true] at h; cases h

theorem lookup_cons (k a : String) (b : DFrame) (t : Tables) :
    List.lookup k ((a, b) :: t) = if (k == a) then some b else List.lookup k t := by
  cases h : (k == a) with
  | true => simp [List.lookup, h]
  | false => simp [List.lookup, h]

theorem lookup_map_update (d : Tables) (k : String) (v : DFrame) :
    List.lookup k (d.map (fun kv => if kv.1 == k then (k, v) else kv)) =
      if d.any (fun kv => kv.1 == k) then some v else none := by
  induction d with
  | nil => simp
  | cons kv t ih =>
    cases hk : (kv.1 == k) with
    | true =>
      simp only [List.map_cons, hk, if_true, List.any_cons, Bool.true_or]
      rw [lookup_cons, if_pos (by simp)]
    | false =>
      have hne : (k == kv.1) = false := beq_symm_false _ _ hk
      rcases kv with ⟨a, b⟩
      simp only [List.map_cons, hk, if_false, List.any_cons, Bool.false_or]
      rw [lookup_cons, if_neg (by simp_all)]
      exact ih

theorem lookup_append_single (d : Tables) (k k2 : String) (v : DFrame) :
    List.lookup k2 (d ++ [(k, v)]) =
      match List.lookup k2 d with
      | some w => some w
      | none => if (k2 == k) then some v else none := by
  induction d with
  | nil => rw [List.nil_append, lookup_cons]; rfl
  | cons kv t ih =>
    rcases kv with ⟨a, b⟩
    rw [List.cons_append, lookup_cons, lookup_cons]
    cases hk : (k2 == a) with
    | true => simp
    | false => simp [ih]

theorem lookup_eq_none_of_any_false (d : Tables) (k : String)
    (h : d.any (fun kv => kv.1 == k) = false) :
    List.lookup k d = none := by
  induction d with
  | nil => rfl
  | cons kv t ih =>
    simp only [List.any_cons, Bool.or_eq_false_iff] at h
    rcases kv with ⟨a, b⟩
    rw [lookup_cons, if_neg (by simp [beq_symm_false _ _ h.1])]
    exact ih h.2

theorem lookupT_dictInsert_self (d : Tables) (k : String) (v : DFrame) :
    lookupT (dictInsert d k v) k = some v := by
  unfold lookupT dictInsert
  cases hany : d.any (fun kv => kv.1 == k) with
  | true => rw [if_pos (by simp [hany]), lookup_map_update, if_pos (by simp [hany])]
  | false =>
    rw [if_neg (by simp [hany])]
    rw [lookup_append_single, lookup_eq_none_of_any_false d k hany]
    simp

theorem lookup_map_update_other (d : Tables) (k k2 : String) (v : DFrame)
    (h : k2 ≠ k) :
    List.lookup k2 (d.map (fun kv => if kv.1 == k then (k, v) else kv)) =
      List.lookup k2 d := by
  induction d with
  | nil => rfl
  | cons kv t ih =>
    rcases kv with ⟨a, b⟩
    cases hk : ((a, b).1 == k) with
    | true =>
      have h1 : (k2 == k) = false := beq_eq_false_iff_ne.mpr h
      have h2 : (k2 == a) = false := by
        have ha : a = k := eq_of_beq hk
        rw [ha]; exact h1
      simp only [List.map_cons, hk, if_true]
      rw [lookup_cons, lookup_cons, if_neg (by simp [h1]), if_neg (by simp [h2])]
      exact ih
    | false =>
      simp only [List.map_cons, hk, if_false]
      rw [lookup_cons, lookup_cons]
      by_cases hk2 : k2 = a
      · simp [hk2]
      · rw [if_neg (by simp [hk2]), if_neg (by simp [hk2])]
        exact ih

theorem lookupT_dictInsert_other (d : Tables) (k k2 : String) (v : DFrame)
    (h : k2 ≠ k) :
    lookupT (dictInsert d k v) k2 = lookupT d k2 := by
  unfold lookupT dictInsert
  cases hany : d.any (fun kv => kv.1 == k) with
  | true => rw [if_pos (by simp [hany])]; exact lookup_map_update_other d k k2 v h
  | false =>
    rw [if_neg (by simp [hany])]
    rw [lookup_append_single]
    have h1 : (k2 == k) = false := beq_eq_false_iff_ne.mpr h
    simp only [h1]
    cases List.lookup k2 d <;> simp

theorem containsKey_iff (d : Tables) (k : String) :
    containsKey d k = true ↔ ∃ kv ∈ d, kv.1 = k := by
  simp [containsKey, List.any_eq_true, beq_iff_eq]

theorem containsKey_dictInsert (d : Tables) (k k2 : String) (v : DFrame)
    (h : containsKey (dictInsert d k v) k2 = true) :
    k2 = k ∨ containsKey d k2 = true := by
  rw [containsKey_iff] at h
  rcases h with ⟨kv2, hmem, hk2⟩
  unfold dictInsert at hmem
  cases hany : d.any (fun kv => kv.1 == k) with
  | true =>
    rw [if_pos (by simp [hany])] at hmem
    rcases List.mem_map.mp hmem with ⟨kv, hkv, hf⟩
    cases hk : (kv.1 == k) with
    | true =>
      rw [hk] at hf; rw [if_pos rfl] at hf
      rw [← hf] at hk2
      exact Or.inl hk2.symm
    | false =>
      rw [hk] at hf; rw [if_neg (by simp)] at hf
      rw [hf] at hkv
      exact Or.inr (containsKey_iff d k2 |>.mpr ⟨kv2, hkv, hk2⟩)
  | false =>
    rw [if_neg (by simp [hany])] at hmem
    rcases List.mem_append.mp hmem with hmem | hmem
    · exact Or.inr (containsKey_iff d k2 |>.mpr ⟨kv2, hmem, hk2⟩)
    · rw [List.mem_singleton] at hmem
      rw [hmem] at hk2
      exact Or.inl hk2.symm

theorem containsKey_dictPop (d : Tables) (k k2 : String)
    (h : containsKey (dictPop d k) k2 = true) :
    containsKey d k2 = true := by
  unfold containsKey dictPop at *
  rcases List.any_eq_true.mp h with ⟨kv, hmem, hp⟩
  exact List.any_eq_true.mpr ⟨kv, List.mem_of_mem_filter hmem, hp⟩

theorem containsKey_of_mem (d : Tables) (nt : String × DFrame) (h : nt ∈ d) :
    containsKey d nt.1 = true :=
  List.any_eq_true.mpr ⟨nt, h, beq_self_eq_true nt.1⟩

theorem processCells_true (name col : String) (cells : List Value) :
    ∀ (i : Nat) (acc acc2 : Tables) (b2 : Bool),
    processCells name col cells i acc true = some (acc2, b2) → b2 = true := by
  induction cells with
  | nil =>
    intro i acc acc2 b2 h
    simp only [processCells, Option.some.injEq, Prod.mk.injEq] at h
    exact h.2.symm
  | cons v rest ih =>
    intro i acc acc2 b2 h
    cases v with
    | list l =>
      simp only [processCells] at h
      cases hjn : json_normalize (Value.list l) with
      | none => rw [hjn] at h; cases h
      | some tb => rw [hjn] at h; exact ih _ _ _ _ h
    | str s => exact ih _ _ _ _ h
    | num n => exact ih _ _ _ _ h
    | bool b => exact ih _ _ _ _ h
    | null => exact ih _ _ _ _ h
    | obj f => exact ih _ _ _ _ h

theorem processCells_changed (name col : String) (cells : List Value) :
    ∀ (i : Nat) (acc acc2 : Tables) (b b2 : Bool),
    processCells name col cells i acc b = some (acc2, b2) →
    b2 = (b || cells.any isList) := by
  induction cells with
  | nil =>
    intro i acc acc2 b b2 h
    simp only [processCells, Option.some.injEq, Prod.mk.injEq] at h
    simp [h.2.symm]
  | cons v rest ih =>
    intro i acc acc2 b b2 h
    cases v with
    | list l =>
      simp only [processCells] at h
      cases hjn : json_normalize (Value.list l) with
      | none => rw [hjn] at h; cases h
      | some tb =>
        rw [hjn] at h
        have := processCells_true name col rest _ _ _ _ h
        simp [this, isList]
    | str s => have := ih _ _ _ _ _ h; simp [this, isList]
    | num n => have := ih _ _ _ _ _ h; simp [this, isList]
    | bool b3 => have := ih _ _ _ _ _ h; simp [this, isList]
    | null => have := ih _ _ _ _ _ h; simp [this, isList]
    | obj f => have := ih _ _ _ _ _ h; simp [this, isList]

theorem processCells_nochange (name col : String) (cells : List Value) :
    ∀ (i : Nat) (acc acc2 : Tables) (b : Bool),
    processCells name col cells i acc b = some (acc2, false) → acc2 = acc := by
  induction cells with
  | nil =>
    intro i acc acc2 b h
    simp only [processCells, Option.some.injEq, Prod.mk.injEq] at h
    exact h.1.symm
  | cons v rest ih =>
    intro i acc acc2 b h
    cases v with
    | list l =>
      simp only [processCells] at h
      cases hjn : json_normalize (Value.list l) with
      | none => rw [hjn] at h; cases h
      | some tb =>
        rw [hjn] at h
        have := processCells_true name col rest _ _ _ _ h
        cases this
    | str s => exact ih _ _ _ _ h
    | num n => exact ih _ _ _ _ h
    | bool b3 => exact ih _ _ _ _ h
    | null => exact ih _ _ _ _ h
    | obj f => exact ih _ _ _ _ h

theorem processCells_clean (name col : String) (cells : List Value)
    (hc : cells.any isList = false) :
    ∀ (i : Nat) (acc : Tables) (b : Bool),
    processCells name col cells i acc b = some (acc, b) := by
  induction cells with
  | nil => intro i acc b; rfl
  | cons v rest ih =>
    intro i acc b
    simp only [List.any_cons, Bool.or_eq_false_iff] at hc
    cases v with
    | list l => simp [isList] at hc
    | str s => exact ih hc.2 _ _ _
    | num n => exact ih hc.2 _ _ _
    | bool b3 => exact ih hc.2 _ _ _
    | null => exact ih hc.2 _ _ _
    | obj f => exact ih hc.2 _ _ _

theorem length_ne_key (n c : String) (j : Nat) :
    (n ++ "." ++ c ++ toString j) ≠ n := by
  intro h
  have hl := congrArg String.length h
  have hdot : (".").length = 1 := by decide
  rw [String.length_append, String.length_append, String.length_append, hdot] at hl
  omega

theorem processCells_lookup_preserve (name col : String) (cells : List Value) :
    ∀ (i : Nat) (acc acc2 : Tables) (b b2 : Bool),
    processCells name col cells i acc b = some (acc2, b2) →
    lookupT acc2 name = lookupT acc name := by
  induction cells with
  | nil =>
    intro i acc acc2 b b2 h
    simp only [processCells, Option.some.injEq, Prod.mk.injEq] at h
    rw [h.1]
  | cons v rest ih =>
    intro i acc acc2 b b2 h
    cases v with
    | list l =>
      simp only [processCells] at h
      cases hjn : json_normalize (Value.list l) with
      | none => rw [hjn] at h; cases h
      | some tb =>
        rw [hjn] at h
        rw [ih _ _ _ _ _ h]
        exact lookupT_dictInsert_other _ _ _ _ (length_ne_key name col i).symm
    | str s => exact ih _ _ _ _ _ h
    | num n => exact ih _ _ _ _ _ h
    | bool b3 => exact ih _ _ _ _ _ h
    | null => exact ih _ _ _ _ _ h
    | obj f => exact ih _ _ _ _ _ h

theorem processCells_keys (name col : String) (cells : List Value) :
    ∀ (i : Nat) (acc acc2 : Tables) (b b2 : Bool),
    processCells name col cells i acc b = some (acc2, b2) →
    ∀ k, containsKey acc2 k = true →
    containsKey acc k = true ∨ k ∈ trigKeysC name col cells i := by
  induction cells with
  | nil =>
    intro i acc acc2 b b2 h k hk
    simp only [processCells, Option.some.injEq, Prod.mk.injEq] at h
    rw [h.1]
    exact Or.inl hk
  | cons v rest ih =>
    intro i acc acc2 b b2 h k hk
    cases v with
    | list l =>
      simp only [processCells] at h
      cases hjn : json_normalize (Value.list l) with
      | none => rw [hjn] at h; cases h
      | some tb =>
        rw [hjn] at h
        rcases ih _ _ _ _ _ h k hk with h1 | h1
        · rcases containsKey_dictInsert _ _ _ _ h1 with h2 | h2
          · refine Or.inr ?_
            rw [h2]
            simp [trigKeysC, isList]
          · exact Or.inl h2
        · refine Or.inr ?_
          simp only [trigKeysC, isList, if_true]
          exact List.mem_cons_of_mem _ h1
    | str s =>
      rcases ih _ _ _ _ _ h k hk with h1 | h1
      · exact Or.inl h1
      · exact Or.inr (by simpa [trigKeysC, isList] using h1)
    | num n =>
      rcases ih _ _ _ _ _ h k hk with h1 | h1
      · exact Or.inl h1
      · exact Or.inr (by simpa [trigKeysC, isList] using h1)
    | bool b3 =>
      rcases ih _ _ _ _ _ h k hk with h1 | h1
      · exact Or.inl h1
      · exact Or.inr (by simpa [trigKeysC, isList] using h1)
    | null =>
      rcases ih _ _ _ _ _ h k hk with h1 | h1
      · exact Or.inl h1
      · exact Or.inr (by simpa [trigKeysC, isList] using h1)
    | obj f =>
      rcases ih _ _ _ _ _ h k hk with h1 | h1
      · exact Or.inl h1
      · exact Or.inr (by simpa [trigKeysC, isList] using h1)

theorem processTable_true (name : String) (t : DFrame)
    (cols : List (String × List Value)) :
    ∀ (acc acc2 : Tables) (la2 : Bool),
    processTable name t cols acc true = some (acc2, la2) → la2 = true := by
  induction cols with
  | nil =>
    intro acc acc2 la2 h
    simp only [processTable, Option.some.injEq, Prod.mk.injEq] at h
    exact h.2.symm
  | cons c rest ih =>
    intro acc acc2 la2 h
    rcases c with ⟨col, cells⟩
    simp only [processTable] at h
    cases hpc : processCells name col cells 1 acc false with
    | none => rw [hpc] at h; cases h
    | some p =>
      rcases p with ⟨acc3, ch⟩
      rw [hpc] at h
      cases ch with
      | true => exact ih _ _ _ h
      | false => exact ih _ _ _ h

theorem processTable_false (name : String) (t : DFrame)
    (cols : List (String × List Value)) :
    ∀ (acc acc2 : Tables) (la : Bool),
    processTable name t cols acc la = some (acc2, false) →
    acc2 = acc ∧ la = false ∧ ∀ c ∈ cols, c.2.any isList = false := by
  induction cols with
  | nil =>
    intro acc acc2 la h
    simp only [processTable, Option.some.injEq, Prod.mk.injEq] at h
    exact ⟨h.1.symm, h.2, by simp⟩
  | cons c rest ih =>
    intro acc acc2 la h
    rcases c with ⟨col, cells⟩
    simp only [processTable] at h
    cases hpc : processCells name col cells 1 acc false with
    | none => rw [hpc] at h; cases h
    | some p =>
      rcases p with ⟨acc3, ch⟩
      rw [hpc] at h
      cases ch with
      | true =>
        have := processTable_true name t rest _ _ _ h
        cases this
      | false =>
        rcases ih _ _ _ h with ⟨h1, h2, h3⟩
        have hacc : acc3 = acc := processCells_nochange name col cells _ _ _ _ hpc
        have hany : false = (false || cells.any isList) :=
          processCells_changed name col cells _ _ _ _ _ hpc
        refine ⟨h1.trans hacc, h2, ?_⟩
        intro c hc
        rcases List.mem_cons.mp hc with hc | hc
        · rw [hc]; exact (by simpa using hany.symm)
        · exact h3 c hc

theorem processTable_clean (name : String) (t : DFrame)
    (cols : List (String × List Value))
    (hcols : ∀ c ∈ cols, c.2.any isList = false) :
    ∀ (acc : Tables) (la : Bool),
    processTable name t cols acc la = some (acc, la) := by
  induction cols with
  | nil => intro acc la; rfl
  | cons c rest ih =>
    intro acc la
    rcases c with ⟨col, cells⟩
    have hhead : cells.any isList = false := hcols (col, cells) (List.mem_cons_self _ _)
    have h1 := processCells_clean name col cells hhead 1 acc false
    calc processTable name t ((col, cells) :: rest) acc la
        = processTable name t rest acc la := by
          simp only [processTable]
          rw [h1]
          rfl
      _ = some (acc, la) := ih (fun c hc => hcols c (List.mem_cons_of_mem _ hc)) acc la

theorem processTable_keys (name : String) (t : DFrame)
    (cols : List (String × List Value)) :
    ∀ (acc acc2 : Tables) (la la2 : Bool),
    processTable name t cols acc la = some (acc2, la2) →
    ∀ k, containsKey acc2 k = true →
    containsKey acc k = true ∨ k = name ∨
      ∃ c ∈ cols, k ∈ trigKeysC name c.1 c.2 1 := by
  induction cols with
  | nil =>
    intro acc acc2 la la2 h k hk
    simp only [processTable, Option.some.injEq, Prod.mk.injEq] at h
    rw [h.1]
    exact Or.inl hk
  | cons c rest ih =>
    intro acc acc2 la la2 h k hk
    rcases c with ⟨col, cells⟩
    simp only [processTable] at h
    cases hpc : processCells name col cells 1 acc false with
    | none => rw [hpc] at h; cases h
    | some p =>
      rcases p with ⟨acc3, ch⟩
      rw [hpc] at h
      cases ch with
      | true =>
        rcases ih _ _ _ _ h k hk with h1 | h1 | h1
        · rcases containsKey_dictInsert _ _ _ _ h1 with h2 | h2
          · exact Or.inr (Or.inl h2)
          · have h3 := containsKey_dictPop _ _ _ h2
            rcases processCells_keys name col cells _ _ _ _ _ hpc k h3 with h4 | h4
            · exact Or.inl h4
            · exact Or.inr (Or.inr ⟨(col, cells), List.mem_cons_self _ _, h4⟩)
        · exact Or.inr (Or.inl h1)
        · rcases h1 with ⟨c, hc, hkc⟩
          exact Or.inr (Or.inr ⟨c, List.mem_cons_of_mem _ hc, hkc⟩)
      | false =>
        rcases ih _ _ _ _ h k hk with h1 | h1 | h1
        · rcases processCells_keys name col cells _ _ _ _ _ hpc k h1 with h4 | h4
          · exact Or.inl h4
          · exact Or.inr (Or.inr ⟨(col, cells), List.mem_cons_self _ _, h4⟩)
        · exact Or.inr (Or.inl h1)
        · rcases h1 with ⟨c, hc, hkc⟩
          exact Or.inr (Or.inr ⟨c, List.mem_cons_of_mem _ hc, hkc⟩)

theorem processTable_lastListCol (name : String) (t : DFrame)
    (cols : List (String × List Value)) :
    ∀ (acc acc2 : Tables) (la la2 : Bool),
    processTable name t cols acc la = some (acc2, la2) →
    (lastListCol cols = none → lookupT acc2 name = lookupT acc name) ∧
    (∀ c, lastListCol cols = some c → lookupT acc2 name = some (dropCol t c)) := by
  induction cols with
  | nil =>
    intro acc acc2 la la2 h
    simp only [processTable, Option.some.injEq, Prod.mk.injEq] at h
    exact ⟨fun _ => by rw [h.1], fun c hc => by cases hc⟩
  | cons c0 rest ih =>
    intro acc acc2 la la2 h
    rcases c0 with ⟨col, cells⟩
    simp only [processTable] at h
    cases hpc : processCells name col cells 1 acc false with
    | none => rw [hpc] at h; cases h
    | some p =>
      rcases p with ⟨acc3, ch⟩
      rw [hpc] at h
      have hany : ch = cells.any isList := by
        simpa using processCells_changed name col cells _ _ _ _ _ hpc
      cases ch with
      | true =>
        have hIH := ih (dictInsert (dictPop acc3 name) name (dropCol t col)) acc2 true la2 h
        constructor
        · intro hnone
          exfalso
          simp only [lastListCol] at hnone
          cases hrest : lastListCol rest with
          | some c2 => rw [hrest] at hnone; cases hnone
          | none =>
            rw [hrest, ← hany] at hnone
            simp at hnone
        · intro c hc
          simp only [lastListCol] at hc
          cases hrest : lastListCol rest with
          | some c2 =>
            rw [hrest] at hc
            have : c = c2 := by cases hc; rfl
            rw [this]
            exact hIH.2 c2 hrest
          | none =>
            rw [hrest, ← hany] at hc
            simp only [if_true] at hc
            have : c = col := by cases hc; rfl
            rw [this]
            rw [hIH.1 hrest]
            exact lookupT_dictInsert_self _ _ _
      | false =>
        have hIH := ih acc3 acc2 la la2 h
        have hpre : lookupT acc3 name = lookupT acc name :=
          processCells_lookup_preserve name col cells _ _ _ _ _ hpc
        constructor
        · intro hnone
          simp only [lastListCol] at hnone
          cases hrest : lastListCol rest with
          | some c2 => rw [hrest] at hnone; cases hnone
          | none => rw [(hIH.1 hrest)]; exact hpre
        · intro c hc
          simp only [lastListCol] at hc
          cases hrest : lastListCol rest with
          | some c2 =>
            rw [hrest] at hc
            have : c = c2 := by cases hc; rfl
            rw [this]
            exact hIH.2 c2 hrest
          | none =>
            rw [hrest, ← hany] at hc
            simp at hc

theorem passTables_true (snap : List (String × DFrame)) :
    ∀ (acc acc2 : Tables) (la2 : Bool),
    passTables snap acc true = some (acc2, la2) → la2 = true := by
  induction snap with
  | nil =>
    intro acc acc2 la2 h
    simp only [passTables, Option.some.injEq, Prod.mk.injEq] at h
    exact h.2.symm
  | cons nt rest ih =>
    intro acc acc2 la2 h
    rcases nt with ⟨n, t⟩
    simp only [passTables] at h
    cases hpt : processTable n t t.cols acc true with
    | none => rw [hpt] at h; cases h
    | some p =>
      rcases p with ⟨acc3, la3⟩
      rw [hpt] at h
      have hla3 := processTable_true n t t.cols _ _ _ hpt
      rw [hla3] at h
      exact ih _ _ _ h

theorem passTables_false (snap : List (String × DFrame)) :
    ∀ (acc acc2 : Tables) (la : Bool),
    passTables snap acc la = some (acc2, false) →
    acc2 = acc ∧ la = false ∧ ∀ nt ∈ snap, hasListTable nt.2 = false := by
  induction snap with
  | nil =>
    intro acc acc2 la h
    simp only [passTables, Option.some.injEq, Prod.mk.injEq] at h
    exact ⟨h.1.symm, h.2, by simp⟩
  | cons nt rest ih =>
    intro acc acc2 la h
    rcases nt with ⟨n, t⟩
    simp only [passTables] at h
    cases hpt : processTable n t t.cols acc la with
    | none => rw [hpt] at h; cases h
    | some p =>
      rcases p with ⟨acc3, la3⟩
      rw [hpt] at h
      rcases ih _ _ _ h with ⟨h1, h2, h3⟩
      rcases processTable_false n t t.cols _ _ _ (h2 ▸ hpt) with ⟨h4, h5, h6⟩
      refine ⟨h1.trans h4, h5, ?_⟩
      intro nt hnt
      rcases List.mem_cons.mp hnt with hnt | hnt
      · rw [hnt]
        simp only [hasListTable]
        rw [List.any_eq_false]
        intro c hc
        simp [h6 c hc]
      · exact h3 nt hnt

theorem passTables_clean (snap : List (String × DFrame))
    (hsnap : ∀ nt ∈ snap, hasListTable nt.2 = false) :
    ∀ (acc : Tables) (la : Bool),
    passTables snap acc la = some (acc, la) := by
  induction snap with
  | nil => intro acc la; rfl
  | cons nt rest ih =>
    intro acc la
    rcases nt with ⟨n, t⟩
    have hcols : ∀ c ∈ t.cols, c.2.any isList = false := by
      have := hsnap (n, t) (List.mem_cons_self _ _)
      simp only [hasListTable, List.any_eq_false] at this
      intro c hc
      have h2 := this c hc
      simpa using h2
    calc passTables ((n, t) :: rest) acc la
        = passTables rest acc la := by
          simp only [passTables]
          rw [processTable_clean n t t.cols hcols acc la]
      _ = some (acc, la) := ih (fun nt hnt => hsnap nt (List.mem_cons_of_mem _ hnt)) acc la

theorem passTables_keys (snap : List (String × DFrame)) :
    ∀ (acc acc2 : Tables) (la la2 : Bool),
    passTables snap acc la = some (acc2, la2) →
    ∀ k, containsKey acc2 k = true →
    containsKey acc k = true ∨
      ∃ nt ∈ snap, k = nt.1 ∨ ∃ c ∈ nt.2.cols, k ∈ trigKeysC nt.1 c.1 c.2 1 := by
  induction snap with
  | nil =>
    intro acc acc2 la la2 h k hk
    simp only [passTables, Option.some.injEq, Prod.mk.injEq] at h
    rw [h.1]
    exact Or.inl hk
  | cons nt rest ih =>
    intro acc acc2 la la2 h k hk
    rcases nt with ⟨n, t⟩
    simp only [passTables] at h
    cases hpt : processTable n t t.cols acc la with
    | none => rw [hpt] at h; cases h
    | some p =>
      rcases p with ⟨acc3, la3⟩
      rw [hpt] at h
      rcases ih _ _ _ _ h k hk with h1 | h1
      · rcases processTable_keys n t t.cols _ _ _ _ hpt k h1 with h2 | h2 | h2
        · exact Or.inl h2
        · exact Or.inr ⟨(n, t), List.mem_cons_self _ _, Or.inl h2⟩
        · exact Or.inr ⟨(n, t), List.mem_cons_self _ _, Or.inr h2⟩
      · rcases h1 with ⟨nt2, hnt2, hcase⟩
        exact Or.inr ⟨nt2, List.mem_cons_of_mem _ hnt2, hcase⟩

theorem flatten_from_nested_eq (ts ts2 : Tables) (b : Bool)
    (h : flatten_from_nested ts = some (b, ts2)) :
    passTables ts ts false = some (ts2, b) := by
  unfold flatten_from_nested at h
  cases hp : passTables ts ts false with
  | none => rw [hp] at h; cases h
  | some p =>
    rcases p with ⟨a, c⟩
    rw [hp] at h
    have h3 : (some (c, a) : Option (Bool × Tables)) = some (b, ts2) := h
    simp only [Option.some.injEq, Prod.mk.injEq] at h3
    rw [← h3.1, ← h3.2]

/-- Core fixed-point fact about one pass: a pass that reports no
further work leaves the mapping untouched, and can only do so when no
cell of any table holds a list. -/
theorem pass_false_core (ts ts2 : Tables)
    (h : flatten_from_nested ts = some (false, ts2)) :
    ts2 = ts ∧ hasListCell ts = false := by
  have h2 := flatten_from_nested_eq ts ts2 false h
  rcases passTables_false ts ts ts2 false h2 with ⟨h3, _, h5⟩
  refine ⟨h3, ?_⟩
  simp only [hasListCell, List.any_eq_false]
  intro nt hnt
  simp [h5 nt hnt]

/-- Core progress fact about one pass: on a mapping with no list-typed
cell, a pass succeeds, changes nothing and reports no further work. -/
theorem pass_clean_core (ts : Tables) (h : hasListCell ts = false) :
    flatten_from_nested ts = some (false, ts) := by
  have hsnap : ∀ nt ∈ ts, hasListTable nt.2 = false := by
    simp only [hasListCell, List.any_eq_false] at h
    intro nt hnt
    simpa using h nt hnt
  unfold flatten_from_nested
  rw [passTables_clean ts hsnap ts false]
  rfl

/-- Whatever mapping the iteration of `flatten_other_levels` returns
contains no list-typed cell: the loop only stops after a pass that
found none. -/
theorem flatten_other_levels_clean (fuel : Nat) :
    ∀ (ts ts2 : Tables), flatten_other_levels fuel ts = some ts2 →
    hasListCell ts2 = false := by
  induction fuel with
  | zero => intro ts ts2 h; cases h
  | succ n ih =>
    intro ts ts2 h
    simp only [flatten_other_levels] at h
    cases hp : flatten_from_nested ts with
    | none => rw [hp] at h; cases h
    | some p =>
      rcases p with ⟨b, ts3⟩
      rw [hp] at h
      cases b with
      | false =>
        simp only [Option.some.injEq] at h
        rcases pass_false_core ts ts3 hp with ⟨h1, h2⟩
        rw [← h, h1]
        exact h2
      | true => exact ih _ _ h

/-- Claim C1: for every finite well-formed document on which the
flattening engine (`extract_dataframes`, for any fuel) completes
without error, the resulting table mapping is a fixed point: no cell
of any table in the mapping holds a list-typed value. -/
theorem C1_fixed_point (fuel : Nat) (df : DFrame) (ts : Tables)
    (h : extract_dataframes fuel df = some ts) :
    hasListCell ts = false := by
  unfold extract_dataframes at h
  cases hfl : flatten_first_level df with
  | none => rw [hfl] at h; cases h
  | some ts1 =>
    rw [hfl] at h
    exact flatten_other_levels_clean fuel ts1 ts h

/-- Witness for C1 at the second example document of the
specification. -/
theorem C1_fixed_point_witness :
    extract_dataframes 3 exScalarListDf = some exScalarListRes ∧
    hasListCell exScalarListRes = false :=
  ⟨rfl, C1_fixed_point 3 exScalarListDf exScalarListRes rfl⟩

/-- Counterexample to claim C2: on the reachable mapping `exGrowTs`
one pass of `flatten_from_nested` reports further work and raises the
total count of list-typed cells from 1 to 2, so a pass does not
strictly reduce that count, and the one list-typed cell found was not
turned into a list-free table in that pass. -/
theorem C2_counterexample :
    listCellCount exGrowTs = 1 ∧
    (flatten_from_nested exGrowTs).map (fun p => p.1) = some true ∧
    (flatten_from_nested exGrowTs).map (fun p => listCellCount p.2) = some 2 :=
  ⟨rfl, rfl, rfl⟩

/-- Claim C2 as amended: the count of list-typed cells is not a
decreasing measure of the iteration; the loop instead stops exactly
when a pass reports no further work, which happens precisely on a
mapping that holds no list-typed cell at all, and such a pass returns
the mapping unchanged. -/
theorem C2_amended (ts ts2 : Tables) :
    flatten_from_nested ts = some (false, ts2) ↔
      ts2 = ts ∧ hasListCell ts = false := by
  constructor
  · exact fun h => pass_false_core ts ts2 h
  · rintro ⟨h1, h2⟩
    rw [h1]
    exact pass_clean_core ts h2

/-- Witness for C2 as amended, on a list-free one-table mapping. -/
theorem C2_amended_witness :
    flatten_from_nested exCleanTs = some (false, exCleanTs) :=
  (C2_amended exCleanTs exCleanTs).mpr ⟨rfl, rfl⟩

/-- Counterexample to claim C3: in `exMixedTs` the column `c` of table
`T` holds a scalar in row 1 and a list in row 2, so the list is the
first one of the column; the child table is nevertheless named `T.c2`
after the absolute row position, not `T.c1` as the claim requires. -/
theorem C3_counterexample :
    (flatten_from_nested exMixedTs).map
        (fun p => (containsKey p.2 ("T.c2"), containsKey p.2 ("T.c1"))) =
      some (true, false) := rfl

/-- Claim C3 as amended: every table name present after a pass is
either a name that was already present or has the shape
`parent ++ "." ++ column ++ i` where `i` is the absolute 1-based
position of the triggering row among all rows of the parent column
(the position counted over all rows, not only over the rows holding
lists). -/
theorem C3_amended (ts ts2 : Tables) (b : Bool) (k : String)
    (h : flatten_from_nested ts = some (b, ts2))
    (hk : containsKey ts2 k = true) :
    containsKey ts k = true ∨
      ∃ nt ∈ ts, ∃ c ∈ nt.2.cols, k ∈ trigKeysC nt.1 c.1 c.2 1 := by
  have h2 := flatten_from_nested_eq ts ts2 b h
  rcases passTables_keys ts ts ts2 false b h2 k hk with h3 | h3
  · exact Or.inl h3
  · rcases h3 with ⟨nt, hnt, hcase⟩
    rcases hcase with hcase | hcase
    · rw [hcase]
      exact Or.inl (containsKey_of_mem ts nt hnt)
    · exact Or.inr ⟨nt, hnt, hcase⟩

/-- Witness for C3 as amended, on the mixed-rows table. -/
theorem C3_amended_witness :
    containsKey exMixedTs ("T.c2") = true ∨
      ∃ nt ∈ exMixedTs, ∃ c ∈ nt.2.cols,
        ("T.c2" : String) ∈ trigKeysC nt.1 c.1 c.2 1 :=
  C3_amended exMixedTs exMixedRes.2 exMixedRes.1 ("T.c2") rfl rfl

/-- Counterexample to claim C4: in the pass over `exTwoColTs` both
columns `A` and `B` of table `T` hold a list cell, yet the resulting
table under `T` is the snapshot table with only `B` dropped: column
`A` is still present together with its list-typed cell. -/
theorem C4_counterexample :
    (flatten_from_nested exTwoColTs).map (fun p => lookupT p.2 ("T")) =
      some (some (dropCol exTwoColTable ("B"))) ∧
    hasListTable (dropCol exTwoColTable ("B")) = true ∧
    (dropCol exTwoColTable ("B")).cols.map Prod.fst = [("A" : String)] :=
  ⟨rfl, rfl, rfl⟩

/-- Claim C4 as amended: in one pass over a mapping holding one table,
only the last column (in column order) that contains a list-typed cell
is removed from that table; each reassignment drops a single column
from the snapshot table, so the last one wins and every earlier
list-valued column stays. -/
theorem C4_amended (name : String) (t : DFrame) (b : Bool) (ts2 : Tables)
    (c : String)
    (h : flatten_from_nested [(name, t)] = some (b, ts2))
    (hc : lastListCol t.cols = some c) :
    lookupT ts2 name = some (dropCol t c) := by
  have h2 := flatten_from_nested_eq _ _ _ h
  simp only [passTables] at h2
  cases hpt : processTable name t t.cols [(name, t)] false with
  | none => rw [hpt] at h2; cases h2
  | some p =>
    rcases p with ⟨acc3, la3⟩
    rw [hpt] at h2
    have h3 : (some (acc3, la3) : Option (Tables × Bool)) = some (ts2, b) := h2
    simp only [Option.some.injEq, Prod.mk.injEq] at h3
    have h4 := (processTable_lastListCol name t t.cols _ _ _ _ hpt).2 c hc
    rw [← h3.1]
    exact h4

/-- Witness for C4 as amended, on the two-list-column table. -/
theorem C4_amended_witness :
    lookupT exTwoColRes.2 ("T") = some (dropCol exTwoColTable ("B")) :=
  C4_amended ("T") exTwoColTable exTwoColRes.1 exTwoColRes.2 ("B") rfl rfl

theorem flattenFLAux_err (cols : List (String × List Value)) :
    ∀ (cl : List String) (ts : Tables) (f : String) (cells : List Value),
    (f, cells) ∈ cols → cells.head? = some (Value.list []) →
    flattenFLAux cols cl ts = none := by
  induction cols with
  | nil =>
    intro cl ts f cells hmem _
    cases hmem
  | cons fc rest ih =>
    intro cl ts f cells hmem hc
    rcases fc with ⟨g, gcells⟩
    rcases List.mem_cons.mp hmem with heq | hmem2
    · have hf : g = f := (congrArg Prod.fst heq).symm
      have hcg : gcells = cells := (congrArg Prod.snd heq).symm
      subst hf
      subst hcg
      cases gcells with
      | nil => cases hc
      | cons v cr =>
        have hv : v = Value.list [] := by injection hc
        subst hv
        simp [flattenFLAux]
    · cases gcells with
      | nil => simp [flattenFLAux]
      | cons v cr =>
        cases v with
        | str s => simp only [flattenFLAux, List.head?_cons]; exact ih _ _ f cells hmem2 hc
        | num n => simp only [flattenFLAux, List.head?_cons]; exact ih _ _ f cells hmem2 hc
        | bool b => simp only [flattenFLAux, List.head?_cons]; exact ih _ _ f cells hmem2 hc
        | null => simp only [flattenFLAux, List.head?_cons]; exact ih _ _ f cells hmem2 hc
        | obj o => simp only [flattenFLAux, List.head?_cons]; exact ih _ _ f cells hmem2 hc
        | list l =>
          cases l with
          | nil => simp [flattenFLAux]
          | cons h0 t0 =>
            cases h0 with
            | str s =>
              simp only [flattenFLAux, List.head?_cons]
              exact ih _ _ f cells hmem2 hc
            | num n =>
              simp only [flattenFLAux, List.head?_cons]
              cases hjn : json_normalize (Value.list (Value.num n :: t0)) with
              | none => rfl
              | some tb => exact ih _ _ f cells hmem2 hc
            | bool b =>
              simp only [flattenFLAux, List.head?_cons]
              cases hjn : json_normalize (Value.list (Value.bool b :: t0)) with
              | none => rfl
              | some tb => exact ih _ _ f cells hmem2 hc
            | null =>
              simp only [flattenFLAux, List.head?_cons]
              cases hjn : json_normalize (Value.list (Value.null :: t0)) with
              | none => rfl
              | some tb => exact ih _ _ f cells hmem2 hc
            | obj o =>
              simp only [flattenFLAux, List.head?_cons]
              cases hjn : json_normalize (Value.list (Value.obj o :: t0)) with
              | none => rfl
              | some tb => exact ih _ _ f cells hmem2 hc
            | list l2 =>
              simp only [flattenFLAux, List.head?_cons]
              cases hjn : json_normalize (Value.list (Value.list l2 :: t0)) with
              | none => rfl
              | some tb => exact ih _ _ f cells hmem2 hc

/-- Claim C10: when any first-level field of the document holds an
empty list, the first-level split fails with an error, because the
access `value.values[0][0]` is unguarded; the engine is total only
when every first-level list is non-empty. -/
theorem C10_empty_list_error (df : DFrame) (f : String) (cells : List Value)
    (hmem : (f, cells) ∈ df.cols)
    (hc : cells.head? = some (Value.list [])) :
    flatten_first_level df = none := by
  unfold flatten_first_level
  rw [flattenFLAux_err df.cols [] [] f cells hmem hc]
  rfl

/-- Witness for C10 at the document with the single field `e` holding
an empty list. -/
theorem C10_empty_list_error_witness :
    flatten_first_level exEmptyListDf = none :=
  C10_empty_list_error exEmptyListDf ("e") [Value.list []]
    (List.Mem.head _) rfl

theorem flattenFLAux_preserve (cols : List (String × List Value)) :
    ∀ (cl : List String) (ts : Tables) (cl2 : List String) (ts2 : Tables)
      (z : String),
    flattenFLAux cols cl ts = some (cl2, ts2) →
    z ∉ cols.map Prod.fst →
    lookupT ts2 z = lookupT ts z := by
  induction cols with
  | nil =>
    intro cl ts cl2 ts2 z h _
    simp only [flattenFLAux, Option.some.injEq, Prod.mk.injEq] at h
    rw [h.2]
  | cons fc rest ih =>
    intro cl ts cl2 ts2 z h hz
    rcases fc with ⟨g, gcells⟩
    have hzg : z ≠ g := by
      intro he
      exact hz (by rw [he]; simp)
    have hzr : z ∉ rest.map Prod.fst := by
      intro hm
      exact hz (by simp [hm])
    cases gcells with
    | nil => exact Option.noConfusion h
    | cons v cr =>
      cases v with
      | str s => exact ih _ _ _ _ z h hzr
      | num n => exact ih _ _ _ _ z h hzr
      | bool b => exact ih _ _ _ _ z h hzr
      | null => exact ih _ _ _ _ z h hzr
      | obj o => exact ih _ _ _ _ z h hzr
      | list l =>
        cases l with
        | nil => exact Option.noConfusion h
        | cons h0 t0 =>
          cases h0 with
          | str s =>
            have h2 : flattenFLAux rest cl
                (dictInsert ts g (singleColDF g (Value.str s :: t0))) =
                some (cl2, ts2) := h
            rw [ih _ _ _ _ z h2 hzr]
            exact lookupT_dictInsert_other _ _ _ _ hzg
          | num n =>
            simp only [flattenFLAux, List.head?_cons] at h
            cases hjn : json_normalize (Value.list (Value.num n :: t0)) with
            | none => rw [hjn] at h; exact Option.noConfusion h
            | some tb =>
              rw [hjn] at h
              have h2 : flattenFLAux rest cl (dictInsert ts g tb) =
                  some (cl2, ts2) := h
              rw [ih _ _ _ _ z h2 hzr]
              exact lookupT_dictInsert_other _ _ _ _ hzg
          | bool b =>
            simp only [flattenFLAux, List.head?_cons] at h
            cases hjn : json_normalize (Value.list (Value.bool b :: t0)) with
            | none => rw [hjn] at h; exact Option.noConfusion h
            | some tb =>
              rw [hjn] at h
              have h2 : flattenFLAux rest cl (dictInsert ts g tb) =
                  some (cl2, ts2) := h
              rw [ih _ _ _ _ z h2 hzr]
              exact lookupT_dictInsert_other _ _ _ _ hzg
          | null =>
            simp only [flattenFLAux, List.head?_cons] at h
            cases hjn : json_normalize (Value.list (Value.null :: t0)) with
            | none => rw [hjn] at h; exact Option.noConfusion h
            | some tb =>
              rw [hjn] at h
              have h2 : flattenFLAux rest cl (dictInsert ts g tb) =
                  some (cl2, ts2) := h
              rw [ih _ _ _ _ z h2 hzr]
              exact lookupT_dictInsert_other _ _ _ _ hzg
          | obj o =>
            simp only [flattenFLAux, List.head?_cons] at h
            cases hjn : json_normalize (Value.list (Value.obj o :: t0)) with
            | none => rw [hjn] at h; exact Option.noConfusion h
            | some tb =>
              rw [hjn] at h
              have h2 : flattenFLAux rest cl (dictInsert ts g tb) =
                  some (cl2, ts2) := h
              rw [ih _ _ _ _ z h2 hzr]
              exact lookupT_dictInsert_other _ _ _ _ hzg
          | list l2 =>
            simp only [flattenFLAux, List.head?_cons] at h
            cases hjn : json_normalize (Value.list (Value.list l2 :: t0)) with
            | none => rw [hjn] at h; exact Option.noConfusion h
            | some tb =>
              rw [hjn] at h
              have h2 : flattenFLAux rest cl (dictInsert ts g tb) =
                  some (cl2, ts2) := h
              rw [ih _ _ _ _ z h2 hzr]
              exact lookupT_dictInsert_other _ _ _ _ hzg

theorem flattenFLAux_cons_inv (g : String) (gcells : List Value)
    (rest : List (String × List Value)) (cl : List String) (ts : Tables)
    (cl2 : List String) (ts2 : Tables)
    (h : flattenFLAux ((g, gcells) :: rest) cl ts = some (cl2, ts2)) :
    ∃ cl3 ts3, flattenFLAux rest cl3 ts3 = some (cl2, ts2) := by
  cases gcells with
  | nil => exact Option.noConfusion h
  | cons v cr =>
    cases v with
    | str s => exact ⟨_, _, h⟩
    | num n => exact ⟨_, _, h⟩
    | bool b => exact ⟨_, _, h⟩
    | null => exact ⟨_, _, h⟩
    | obj o => exact ⟨_, _, h⟩
    | list l =>
      cases l with
      | nil => exact Option.noConfusion h
      | cons h0 t0 =>
        cases h0 with
        | str s => exact ⟨_, _, h⟩
        | num n =>
          simp only [flattenFLAux, List.head?_cons] at h
          cases hjn : json_normalize (Value.list (Value.num n :: t0)) with
          | none => rw [hjn] at h; exact Option.noConfusion h
          | some tb => rw [hjn] at h; exact ⟨_, _, h⟩
        | bool b =>
          simp only [flattenFLAux, List.head?_cons] at h
          cases hjn : json_normalize (Value.list (Value.bool b :: t0)) with
          | none => rw [hjn] at h; exact Option.noConfusion h
          | some tb => rw [hjn] at h; exact ⟨_, _, h⟩
        | null =>
          simp only [flattenFLAux, List.head?_cons] at h
          cases hjn : json_normalize (Value.list (Value.null :: t0)) with
          | none => rw [hjn] at h; exact Option.noConfusion h
          | some tb => rw [hjn] at h; exact ⟨_, _, h⟩
        | obj o =>
          simp only [flattenFLAux, List.head?_cons] at h
          cases hjn : json_normalize (Value.list (Value.obj o :: t0)) with
          | none => rw [hjn] at h; exact Option.noConfusion h
          | some tb => rw [hjn] at h; exact ⟨_, _, h⟩
        | list l2 =>
          simp only [flattenFLAux, List.head?_cons] at h
          cases hjn : json_normalize (Value.list (Value.list l2 :: t0)) with
          | none => rw [hjn] at h; exact Option.noConfusion h
          | some tb => rw [hjn] at h; exact ⟨_, _, h⟩

theorem flattenFLAux_strList (cols : List (String × List Value)) :
    ∀ (cl : List String) (ts : Tables) (cl2 : List String) (ts2 : Tables)
      (f s : String) (t cr : List Value),
    (cols.map Prod.fst).Nodup →
    (f, Value.list (Value.str s :: t) :: cr) ∈ cols →
    flattenFLAux cols cl ts = some (cl2, ts2) →
    lookupT ts2 f = some (singleColDF f (Value.str s :: t)) := by
  induction cols with
  | nil =>
    intro cl ts cl2 ts2 f s t cr _ hmem _
    cases hmem
  | cons fc rest ih =>
    intro cl ts cl2 ts2 f s t cr hnd hmem h
    rcases fc with ⟨g, gcells⟩
    have hnd2 : (rest.map Prod.fst).Nodup :=
      (List.nodup_cons.mp (by simpa using hnd)).2
    rcases List.mem_cons.mp hmem with heq | hmem2
    · have hf : g = f := (congrArg Prod.fst heq).symm
      have hcg : gcells = Value.list (Value.str s :: t) :: cr :=
        (congrArg Prod.snd heq).symm
      subst hf
      subst hcg
      have h2 : flattenFLAux rest cl
          (dictInsert ts g (singleColDF g (Value.str s :: t))) =
          some (cl2, ts2) := h
      have hnotin : g ∉ rest.map Prod.fst :=
        (List.nodup_cons.mp (by simpa using hnd)).1
      rw [flattenFLAux_preserve rest _ _ _ _ g h2 hnotin]
      exact lookupT_dictInsert_self _ _ _
    · rcases flattenFLAux_cons_inv g gcells rest cl ts cl2 ts2 h with ⟨cl3, ts3, h3⟩
      exact ih cl3 ts3 cl2 ts2 f s t cr hnd2 hmem2 h3

theorem json_normalize_objs (vs : List Value) (hne : vs ≠ [])
    (hall : vs.all isObj = true) :
    json_normalize (Value.list vs) =
      some (dfFromRecords (vs.map (fun v => nested_to_record (objFields v)))) := by
  cases vs with
  | nil => cases hne rfl
  | cons v vr => simp [json_normalize, hall]

theorem flattenFLAux_objList (cols : List (String × List Value)) :
    ∀ (cl : List String) (ts : Tables) (cl2 : List String) (ts2 : Tables)
      (f : String) (vs cr : List Value),
    (cols.map Prod.fst).Nodup →
    (f, Value.list vs :: cr) ∈ cols →
    vs ≠ [] → vs.all isObj = true →
    flattenFLAux cols cl ts = some (cl2, ts2) →
    lookupT ts2 f =
      some (dfFromRecords (vs.map (fun v => nested_to_record (objFields v)))) := by
  induction cols with
  | nil =>
    intro cl ts cl2 ts2 f vs cr _ hmem _ _ _
    cases hmem
  | cons fc rest ih =>
    intro cl ts cl2 ts2 f vs cr hnd hmem hne hall h
    rcases fc with ⟨g, gcells⟩
    have hnd2 : (rest.map Prod.fst).Nodup :=
      (List.nodup_cons.mp (by simpa using hnd)).2
    rcases List.mem_cons.mp hmem with heq | hmem2
    · have hf : g = f := (congrArg Prod.fst heq).symm
      have hcg : gcells = Value.list vs :: cr := (congrArg Prod.snd heq).symm
      subst hf
      subst hcg
      cases vs with
      | nil => cases hne rfl
      | cons v0 vr =>
        cases v0 with
        | obj o =>
          have hjn := json_normalize_objs (Value.obj o :: vr) (by simp) hall
          simp only [flattenFLAux, List.head?_cons] at h
          rw [hjn] at h
          have h2 : flattenFLAux rest cl
              (dictInsert ts g (dfFromRecords ((Value.obj o :: vr).map
                (fun v => nested_to_record (objFields v))))) =
              some (cl2, ts2) := h
          have hnotin : g ∉ rest.map Prod.fst :=
            (List.nodup_cons.mp (by simpa using hnd)).1
          rw [flattenFLAux_preserve rest _ _ _ _ g h2 hnotin]
          exact lookupT_dictInsert_self _ _ _
        | str s => simp [isObj] at hall
        | num n => simp [isObj] at hall
        | bool b => simp [isObj] at hall
        | null => simp [isObj] at hall
        | list l2 => simp [isObj] at hall
    · rcases flattenFLAux_cons_inv g gcells rest cl ts cl2 ts2 h with ⟨cl3, ts3, h3⟩
      exact ih cl3 ts3 cl2 ts2 f vs cr hnd2 hmem2 hne hall h3

theorem dfFromRecords_index_length (recs : List (List (String × Value))) :
    (dfFromRecords recs).index.length = recs.length := by
  simp [dfFromRecords]

/-- Counterexample to claim C5: the first-level field `n` of
`exNumListDf` holds the two-element list of the numbers 1 and 2, a
list of scalars; instead of deriving a one-column two-row table, the
first-level split raises inside `pandas.json_normalize` (the
string-detection branch checks `isinstance(value.values[0][0], str)`
and numbers fall through to the normalizer, which rejects non-dict
records), so the split returns an error and no table at all. -/
theorem C5_counterexample :
    flatten_first_level exNumListDf = none := rfl

/-- Claim C5 as amended: for a first-level field whose value is a
non-empty list whose first element is a string, the derived table has
exactly one column and one row per list element; for a field whose
value is a non-empty list of objects, the derived table has one row
per object.  Lists of non-string scalars are rejected with an error.
The field name must differ from the reserved root name 1 and the
column names must be distinct, as they are for every frame built by
`json_normalize`. -/
theorem C5_amended (df : DFrame) (ts : Tables) (f : String)
    (cells : List Value)
    (hnd : (df.cols.map Prod.fst).Nodup)
    (hmem : (f, cells) ∈ df.cols)
    (hne1 : f ≠ "1")
    (h : flatten_first_level df = some ts) :
    (∀ s t cr, cells = Value.list (Value.str s :: t) :: cr →
      lookupT ts f = some (singleColDF f (Value.str s :: t)) ∧
      (singleColDF f (Value.str s :: t)).cols.length = 1 ∧
      (singleColDF f (Value.str s :: t)).index.length = t.length + 1) ∧
    (∀ vs cr, cells = Value.list vs :: cr → vs ≠ [] → vs.all isObj = true →
      ∃ tb, lookupT ts f = some tb ∧ tb.index.length = vs.length) := by
  unfold flatten_first_level at h
  cases haux : flattenFLAux df.cols [] [] with
  | none => rw [haux] at h; cases h
  | some p =>
    rcases p with ⟨cl2, ts2⟩
    rw [haux] at h
    have hts : ts = dictInsert ts2 ("1") (selectCols df cl2) := by
      have h3 : some (dictInsert ts2 ("1") (selectCols df cl2)) = some ts := h
      exact (Option.some.injEq _ _ ▸ h3).symm
    have hlift : lookupT ts f = lookupT ts2 f := by
      rw [hts]
      exact lookupT_dictInsert_other _ _ _ _ hne1
    constructor
    · intro s t cr hcells
      rw [hcells] at hmem
      refine ⟨?_, rfl, by simp [singleColDF]⟩
      rw [hlift]
      exact flattenFLAux_strList df.cols [] [] cl2 ts2 f s t cr hnd hmem haux
    · intro vs cr hcells hvne hall
      rw [hcells] at hmem
      refine ⟨dfFromRecords (vs.map (fun v => nested_to_record (objFields v))),
        ?_, ?_⟩
      · rw [hlift]
        exact flattenFLAux_objList df.cols [] [] cl2 ts2 f vs cr hnd hmem hvne hall haux
      · rw [dfFromRecords_index_length]
        simp

/-- Witness for C5 as amended, at the field `children` of the
scalar-list example document, a list of three strings. -/
theorem C5_amended_witness :
    lookupT exScalarListFirst ("children") =
      some (singleColDF ("children")
        [Value.str ("x"), Value.str ("y"), Value.str ("z")]) ∧
    (singleColDF ("children")
        [Value.str ("x"), Value.str ("y"), Value.str ("z")]).cols.length = 1 ∧
    (singleColDF ("children")
        [Value.str ("x"), Value.str ("y"), Value.str ("z")]).index.length = 2 + 1 :=
  (C5_amended exScalarListDf exScalarListFirst ("children")
      [Value.list [Value.str ("x"), Value.str ("y"), Value.str ("z")]]
      (by decide) (List.Mem.tail _ (List.Mem.head _)) (by decide) rfl).1
    ("x") [Value.str ("y"), Value.str ("z")] [] rfl

/-- Claim C6, evaluated on the code: on the example document of the
specification the first-level split succeeds and produces the tables
`items` (with the list-valued column `tags`) and the root table, but
the iterative expansion then aborts for every fuel, because
`flatten_from_nested` passes the nested string list of `tags` to
`pandas.json_normalize`, which raises on a list of non-dict records;
the run therefore produces none of the tables `items.tags1` and
`items.tags2` that the claim requires. -/
theorem C6_engine_error :
    flatten_first_level exItemsDf = some exItemsTs ∧
    (∀ fuel, extract_dataframes fuel exItemsDf = none) := by
  refine ⟨rfl, ?_⟩
  intro fuel
  have h1 : flatten_first_level exItemsDf = some exItemsTs := rfl
  unfold extract_dataframes
  rw [h1]
  show flatten_other_levels fuel exItemsTs = none
  cases fuel with
  | zero => rfl
  | succ n =>
    have h2 : flatten_from_nested exItemsTs = none := rfl
    simp only [flatten_other_levels]
    rw [h2]

/-- Claim C9: when the root value of the document is not an object,
the conversion fails with an error before the output workbook is
created: no table mapping is produced and no sheet or workbook
artifact is emitted (line 52 `pandas.json_normalize` raises on a
scalar root and line 53 `list(json_string.keys())[0]` raises on a
list root, both before line 54 `create_workbook`). -/
theorem C9_error_no_output (fuel : Nat) (fd td : List (String × String))
    (root : Value) (h : isObj root = false) :
    convert_data_to_excel fuel fd td root = ⟨false, [], true⟩ := by
  cases root with
  | obj f => simp [isObj] at h
  | str s => rfl
  | num n => rfl
  | bool b => rfl
  | null => rfl
  | list vs =>
    cases vs with
    | nil => rfl
    | cons v vr =>
      unfold convert_data_to_excel
      cases hjn : json_normalize (Value.list (v :: vr)) with
      | none => rfl
      | some df => rfl

/-- Witness for C9 at a numeric root. -/
theorem C9_error_no_output_witness :
    convert_data_to_excel 1 [] [] (Value.num 5) = ⟨false, [], true⟩ :=
  C9_error_no_output 1 [] [] (Value.num 5) rfl

/-- Counterexample to claim C8: the Row Reindexer shifts every index
by one unconditionally (`dataframe.index += 1`), so applying it to the
table `exIndexedT`, whose single row is already numbered 1, yields row
number 2, not the unchanged table. -/
theorem C8_counterexample :
    index_to_one exIndexedT ≠ exIndexedT := by
  intro h
  have h2 : ([2] : List Int) = [1] := congrArg DFrame.index h
  injection h2 with h3 _
  exact absurd h3 (by decide)

/-- Claim C8 as amended: the Row Reindexer adds one to every row
index, leaving the columns untouched; on a table whose rows are
numbered 1 to N it therefore yields rows numbered 2 to N+1, so
reindexing is not idempotent; the intended use renumbers the fresh
0-based frames to 1-based ones. -/
theorem C8_amended (df : DFrame) (n : Nat)
    (h : df.index = (List.range n).map (fun k => (Int.ofNat k) + 1)) :
    (index_to_one df).cols = df.cols ∧
    (index_to_one df).index = (List.range n).map (fun k => (Int.ofNat k) + 2) := by
  refine ⟨rfl, ?_⟩
  show df.index.map (fun i => i + 1) = (List.range n).map (fun k => (Int.ofNat k) + 2)
  rw [h, List.map_map]
  have hfun : ((fun i => i + (1 : Int)) ∘ fun k => (Int.ofNat k) + 1) =
      fun k => (Int.ofNat k) + 2 := by
    funext k
    simp only [Function.comp_apply]
    omega
  rw [hfun]

/-- Witness for C8 as amended, on a two-row table numbered 1 and 2. -/
theorem C8_amended_witness :
    (index_to_one exIndexedT2).cols = exIndexedT2.cols ∧
    (index_to_one exIndexedT2).index =
      (List.range 2).map (fun k => (Int.ofNat k) + 2) :=
  C8_amended exIndexedT2 2 (by decide)

theorem shortSegs_spec (segs : List (List Char))
    (hsegs : ∀ seg ∈ segs, seg ≠ []) :
    shortSegs segs = some (segs.map specSegAbbrev).flatten := by
  induction segs with
  | nil => rfl
  | cons seg rest ih =>
    have hne : seg ≠ [] := hsegs seg (List.mem_cons_self _ _)
    cases hl : seg.getLast? with
    | none => exact absurd (List.getLast?_eq_none_iff.mp hl) hne
    | some c =>
      have ih2 := ih (fun s hs => hsegs s (List.mem_cons_of_mem _ hs))
      simp only [shortSegs, hl, ih2, Option.map_some, List.map_cons,
        List.flatten_cons, Option.some.injEq]
      simp [specSegAbbrev, hl]

/-- Claim C7 as amended: a name of at most 31 characters is returned
unchanged; a longer dotted name all of whose non-final segments are
non-empty is rewritten exactly as the specification describes
(`specShortName`), and that result has at most 31 characters.  A
longer name with an empty non-final segment instead raises IndexError
(the counterexample), which forces the non-empty-segment
precondition. -/
theorem C7_amended (name : List Char) :
    (name.length ≤ 31 → create_short_name name = some name) ∧
    (31 < name.length →
      (∀ seg ∈ (splitOnDot name).dropLast, seg ≠ []) →
      create_short_name name = some (specShortName name) ∧
      (specShortName name).length ≤ 31) := by
  constructor
  · intro hle
    unfold create_short_name
    rw [if_pos hle]
  · intro hgt hsegs
    have hspec := shortSegs_spec (splitOnDot name).dropLast hsegs
    have hbase :
        create_short_name name =
          (if (((splitOnDot name).dropLast.map specSegAbbrev).flatten ++
                (splitOnDot name).getLastD []).length ≤ 31 then
            some (((splitOnDot name).dropLast.map specSegAbbrev).flatten ++
              (splitOnDot name).getLastD [])
          else
            match (((splitOnDot name).dropLast.map specSegAbbrev).flatten ++
                (splitOnDot name).getLastD []).getLast? with
            | none => none
            | some c =>
              some ((((splitOnDot name).dropLast.map specSegAbbrev).flatten ++
                (splitOnDot name).getLastD []).take 30 ++ [c])) := by
      unfold create_short_name
      rw [if_neg (by omega), hspec]
    constructor
    · rw [hbase]
      unfold specShortName
      by_cases hp : (((splitOnDot name).dropLast.map specSegAbbrev).flatten ++
          (splitOnDot name).getLastD []).length ≤ 31
      · rw [if_pos hp, if_pos hp]
      · rw [if_neg hp, if_neg hp]
        cases hgl : (((splitOnDot name).dropLast.map specSegAbbrev).flatten ++
            (splitOnDot name).getLastD []).getLast? with
        | none =>
          exfalso
          have := List.getLast?_eq_none_iff.mp hgl
          rw [this] at hp
          simp at hp
        | some c => rfl
    · unfold specShortName
      by_cases hp : (((splitOnDot name).dropLast.map specSegAbbrev).flatten ++
          (splitOnDot name).getLastD []).length ≤ 31
      · rw [if_pos hp]
        exact hp
      · rw [if_neg hp]
        cases hgl : (((splitOnDot name).dropLast.map specSegAbbrev).flatten ++
            (splitOnDot name).getLastD []).getLast? with
        | none =>
          rw [List.length_append, List.length_take]
          simp
        | some c =>
          rw [List.length_append, List.length_take]
          simp

/-- Counterexample to claim C7: the 32-character name consisting of a
dot followed by 31 letters is a longer dotted name, yet the Name
Shortener does not return any identifier for it: its first segment is
empty and `value[len(value) - 1]` raises IndexError. -/
theorem C7_counterexample :
    exDotName.length = 32 ∧ create_short_name exDotName = none :=
  ⟨rfl, rfl⟩

/-- Witness for C7 as amended, at a 38-character dotted name with
non-empty segments. -/
theorem C7_amended_witness :
    create_short_name exLongName = some (specShortName exLongName) ∧
    (specShortName exLongName).length ≤ 31 :=
  (C7_amended exLongName).2 (by decide) (by decide)

end DataToExcel
